import Mathlib

/-!
Verification of the dataset-preparation pipeline in
`experiments/prepare_datasets.py`.

The development shallowly embeds the script: grayscale images are
matrices of natural-number pixel values (cv2 loads 8-bit grayscale, the
combined masks are stored in a `np.uint16` buffer, so every store into
the combined buffer is reduced `% 65536`); filesystem contents are
passed in explicitly (a directory is the list its enumeration yields, a
file that fails to decode is `none`), and the side effects of a run are
returned as an explicit event trace.
-/

set_option autoImplicit false
set_option synthInstance.maxSize 400

namespace PrepareDatasets

/-! ## Definitions: the embedded program -/

/-- A single-channel image: a list of rows of pixel values.  `cv2`
images are rectangular; rectangularity is an explicit hypothesis
(`Rect`) where a theorem needs it. -/
abbrev Image : Type := List (List Nat)

/-- Pixel access with numpy-style 0-based indices; out-of-range reads
default to 0 (all theorems that depend on pixel values restrict to
rectangular images, where out-of-range positions are background). -/
def pix (img : Image) (r c : Nat) : Nat := (img.getD r []).getD c 0

/-- `img` is a rectangular `h × w` image. -/
def Rect (img : Image) (h w : Nat) : Prop :=
  img.length = h ∧ ∀ row ∈ img, row.length = w

instance (img : Image) (h w : Nat) : Decidable (Rect img h w) := by
  unfold Rect; infer_instance

/-- `np.uint16` modulus: the combined-mask buffer is created with
`dtype=np.uint16`, so assigned object ids are stored `% 65536`. -/
def U16 : Nat := 65536

/-- `np.zeros((height, width), dtype=np.uint16)`. -/
def np_zeros (h w : Nat) : Image :=
  List.replicate h (List.replicate w 0)

/-- One iteration of the loop body of `combine_masks`:
`indices = np.where(mask > 0); combined_mask[indices] = object_id`.
Every pixel of `combined` whose corresponding `mask` pixel is non-zero
is overwritten with `object_id` (stored as uint16).  The zip is exact
when the two images have identical shape, which the caller guarantees
(numpy would raise on a shape mismatch). -/
def paint (combined mask : Image) (object_id : Nat) : Image :=
  List.zipWith
    (fun crow mrow =>
      List.zipWith (fun cv mv => if 0 < mv then object_id % U16 else cv) crow mrow)
    combined mask

/-- The `for mask in mask_images` loop of `combine_masks`, threading the
output buffer and the running `object_id` counter. -/
def combineLoop (combined : Image) (object_id : Nat) : List Image → Image
  | [] => combined
  | m :: ms => combineLoop (paint combined m object_id) (object_id + 1) ms

/-- Error raised by `combine_masks` on an empty input: the script reads
`mask_images[0].shape`, which raises `IndexError` on an empty sequence —
the spec's `InvalidInput` condition. -/
inductive MaskError : Type
  | invalidInput : MaskError
deriving DecidableEq, Repr

/-- `combine_masks(mask_images)`: combine multiple mask images into a
single image with distinct object ids.  Reads the shape from the first
element (raising on an empty sequence), starts an all-zero uint16
buffer, and paints each mask with ids 1, 2, … in input order. -/
def combine_masks (mask_images : List Image) : Except MaskError Image :=
  match mask_images with
  | [] => Except.error MaskError.invalidInput
  | m :: _ =>
    let height := m.length
    let width := (m.headD []).length
    Except.ok (combineLoop (np_zeros height width) 1 mask_images)

/-- Row profile of an image: the list of its row lengths.  Two images
zip exactly iff their profiles agree. -/
def profile (img : Image) : List Nat := img.map List.length

/-- Index (0-based) of the last mask in the list whose pixel `(r, c)`
is foreground, if any: the mask whose id survives last-write-wins. -/
def lastHit (r c : Nat) : List Image → Option Nat
  | [] => none
  | m :: ms =>
    match lastHit r c ms with
    | some i => some (i + 1)
    | none => if 0 < pix m r c then some 0 else none

/-- The distinct non-zero pixel values occurring in an image. -/
def nonzeroValues (img : Image) : List Nat :=
  (img.flatten.filter (fun v => v != 0)).dedup

/-- Python's substring test `pat in s` on the character lists: does
`pat` occur contiguously in `s`? -/
def strContainsAux (pat : List Char) : List Char → Bool
  | [] => pat.isEmpty
  | c :: rest => List.isPrefixOf pat (c :: rest) || strContainsAux pat rest

/-- Python's `pat in s` for strings: plain substring containment, not
anchored, not a regex. -/
def containsStr (pat s : String) : Bool :=
  strContainsAux pat.toList s.toList

/-- The three split buckets returned by `split_data` (the keys of its
`defaultdict`). -/
inductive SplitName : Type
  | train : SplitName
  | valid : SplitName
  | test : SplitName
deriving DecidableEq, Repr

def SplitName.toStr : SplitName → String
  | .train => "train"
  | .valid => "valid"
  | .test => "test"

/-- The mapping built by `split_data`: split name to the list of
matched sample paths, in directory-listing order. -/
structure SplitMap : Type where
  train : List String
  valid : List String
  test : List String
deriving DecidableEq, Repr

/-- `os.path.join(directory_path, dirname)` for a relative `dirname`
and a `directory_path` without a trailing separator. -/
def pathJoin (directory_path dirname : String) : String :=
  directory_path ++ "/" ++ dirname

/-- The split classification order of `split_data`: the validation
pattern is tested first, then the test pattern, else train. -/
def classify (val_pattern test_pattern name : String) : SplitName :=
  if containsStr val_pattern name then SplitName.valid
  else if containsStr test_pattern name then SplitName.test
  else SplitName.train

/-- `split_data(directory_path, val_pattern, test_pattern)`: split the
immediate child directory names into train, validation and test buckets
by substring pattern, storing joined paths in listing order. -/
def split_data (directory_path : String) (dirnames : List String)
    (val_pattern test_pattern : String) : SplitMap :=
  match dirnames with
  | [] => ⟨[], [], []⟩
  | d :: ds =>
    let rest := split_data directory_path ds val_pattern test_pattern
    if containsStr val_pattern d then
      { rest with valid := pathJoin directory_path d :: rest.valid }
    else if containsStr test_pattern d then
      { rest with test := pathJoin directory_path d :: rest.test }
    else
      { rest with train := pathJoin directory_path d :: rest.train }

/-- `copy_corresponding_files(corresponding_files_dir, output_dir,
filename_base)`: iterate the source directory listing and `copy2` every
entry whose name starts with `filename_base`.  The embedding returns
the names copied, in listing order; the function is total — a listing
with no match simply copies nothing. -/
def copy_corresponding_files (listing : List String) (filename_base : String) :
    List String :=
  match listing with
  | [] => []
  | f :: rest =>
    if f.startsWith filename_base then
      f :: copy_corresponding_files rest filename_base
    else
      copy_corresponding_files rest filename_base

/-- `load_mask_images(folder_path)`: `cv2.imread` every file of the
directory listing as grayscale; a file that decodes (`img is not None`)
is appended, a failed decode is logged as a warning and skipped.  The
directory is embedded as its listing's decode results. -/
def load_mask_images (files : List (Option Image)) : List Image :=
  match files with
  | [] => []
  | some img :: rest => img :: load_mask_images rest
  | none :: rest => load_mask_images rest

/-- One class subdirectory of a sample: its name and the decode results
of its mask files in listing order. -/
structure ClassDir : Type where
  name : String
  files : List (Option Image)
deriving DecidableEq, Repr

/-- One sample directory under the input root. -/
structure SampleDir : Type where
  name : String
  classes : List ClassDir
deriving DecidableEq, Repr

/-- The CLI parameters of a run (the corresponding-files directory is
embedded as its listing). -/
structure Config : Type where
  output_dir : String
  corr_listing : List String
  val_pattern : String
  test_pattern : String
  format : String
  exclude_class : List String
deriving DecidableEq, Repr

/-- A write effect performed by the run. -/
inductive Event : Type
  | createDir (path : String) : Event
  | writeMask (path : String) (img : Image) : Event
  | copyFile (destDir : String) (filename : String) : Event
deriving DecidableEq, Repr

/-- An uncaught Python exception aborting `process_masks`. -/
inductive PyError : Type
  | indexError : PyError      -- `mask_images[0]` on an empty sequence
  | unboundLocal : PyError    -- `mask_images` referenced before assignment
deriving DecidableEq, Repr

/-- How a `process_masks` run ends. -/
inductive RunResult : Type
  | completed : RunResult
  | inputMissing : RunResult        -- input root absent: error logged, early return
  | crashed (e : PyError) : RunResult
deriving DecidableEq, Repr

/-- The mutable state of one `process_masks` call: the events performed
so far, the directories created so far (the output root is fresh, so a
directory exists iff this run created it), and the current value of the
function-local `mask_images` — a Python local that persists across loop
iterations and is unbound (`none`) until the first non-excluded class
is loaded. -/
structure RunState : Type where
  events : List Event
  created : List String
  mask_images : Option (List Image)
deriving DecidableEq, Repr

def initState : RunState := ⟨[], [], none⟩

/-- `create_directory(directory_path)`: `os.makedirs` only when the
directory does not already exist. -/
def create_directory (st : RunState) (directory_path : String) : RunState :=
  if directory_path ∈ st.created then st
  else
    { st with
      events := st.events ++ [Event.createDir directory_path],
      created := directory_path :: st.created }

/-- Body of the `for class_name in os.listdir(dirpath)` loop.  (The
local `all_masks` list the loop extends is never read afterwards, so it
is not part of the state.)  Returns the new state and an uncaught
exception, if one was raised. -/
def processClass (cfg : Config) (split_name filename_base : String)
    (st : RunState) (cls : ClassDir) : RunState × Option PyError :=
  if cls.name ∈ cfg.exclude_class then
    (st, none)
  else
    let imgs := load_mask_images cls.files
    let st1 := { st with mask_images := some imgs }
    match combine_masks imgs with
    | Except.error _ => (st1, some PyError.indexError)
    | Except.ok class_masks =>
      let output_dir_class_split :=
        pathJoin (pathJoin (pathJoin cfg.output_dir cfg.format) cls.name) split_name
      let st2 := create_directory st1 output_dir_class_split
      let save_filepath :=
        pathJoin output_dir_class_split (filename_base ++ "_masks." ++ cfg.format)
      let st3 := { st2 with
        events := st2.events ++ [Event.writeMask save_filepath class_masks] }
      let st4 := { st3 with
        events := st3.events
          ++ (copy_corresponding_files cfg.corr_listing filename_base).map
              (Event.copyFile output_dir_class_split) }
      (st4, none)

def processClasses (cfg : Config) (split_name filename_base : String)
    (st : RunState) : List ClassDir → RunState × Option PyError
  | [] => (st, none)
  | cls :: rest =>
    match processClass cfg split_name filename_base st cls with
    | (st', some e) => (st', some e)
    | (st', none) => processClasses cfg split_name filename_base st' rest

/-- Body of the `for dirpath in split_files` loop: create the "all"
output directory, run the class loop, then write the sample's "all"
mask from the current value of `mask_images` (the pitfall: that is the
*last* class's loaded masks, or a stale/unbound value). -/
def processSample (cfg : Config) (split_name : String) (st : RunState)
    (s : SampleDir) : RunState × Option PyError :=
  let filename_base := s.name
  let all_masks_output_dir :=
    pathJoin (pathJoin (pathJoin cfg.output_dir cfg.format) "all") split_name
  let st1 := create_directory st all_masks_output_dir
  match processClasses cfg split_name filename_base st1 s.classes with
  | (st2, some e) => (st2, some e)
  | (st2, none) =>
    match st2.mask_images with
    | none => (st2, some PyError.unboundLocal)
    | some imgs =>
      match combine_masks imgs with
      | Except.error _ => (st2, some PyError.indexError)
      | Except.ok combined_mask =>
        let save_filepath :=
          pathJoin all_masks_output_dir (filename_base ++ "_masks." ++ cfg.format)
        let st3 := { st2 with
          events := st2.events ++ [Event.writeMask save_filepath combined_mask] }
        let st4 := { st3 with
          events := st3.events
            ++ (copy_corresponding_files cfg.corr_listing filename_base).map
                (Event.copyFile all_masks_output_dir) }
        (st4, none)

def processSamples (cfg : Config) (split_name : String) (st : RunState) :
    List SampleDir → RunState × Option PyError
  | [] => (st, none)
  | s :: rest =>
    match processSample cfg split_name st s with
    | (st', some e) => (st', some e)
    | (st', none) => processSamples cfg split_name st' rest

/-- First-occurrence deduplication: the key iteration order of a
`defaultdict` is the order in which keys were first touched. -/
def firstOccs : List SplitName → List SplitName
  | [] => []
  | k :: ks => k :: (firstOccs ks).filter (fun x => !(x == k))

/-- `data.items()` for the splitter output: buckets in first-touch key
order, each holding its samples in listing order. -/
def orderedBuckets (samples : List SampleDir) (vp tp : String) :
    List (SplitName × List SampleDir) :=
  (firstOccs (samples.map (fun s => classify vp tp s.name))).map
    (fun k => (k, samples.filter (fun s => classify vp tp s.name == k)))

def processSplits (cfg : Config) (st : RunState) :
    List (SplitName × List SampleDir) → RunState × Option PyError
  | [] => (st, none)
  | (k, ss) :: rest =>
    match processSamples cfg k.toStr st ss with
    | (st', some e) => (st', some e)
    | (st', none) => processSplits cfg st' rest

/-- `process_masks(...)`: check the input root, split the samples, then
process every bucket.  `input = none` embeds a non-existent input root
(`os.path.exists` false): the error is logged and the function returns
before doing anything. -/
def process_masks (input : Option (List SampleDir)) (cfg : Config) :
    RunState × RunResult :=
  match input with
  | none => (initState, RunResult.inputMissing)
  | some samples =>
    match processSplits cfg initState
        (orderedBuckets samples cfg.val_pattern cfg.test_pattern) with
    | (st, none) => (st, RunResult.completed)
    | (st, some e) => (st, RunResult.crashed e)

/-- How the `__main__` block ends. -/
inductive MainResult : Type
  | alreadyExists : MainResult      -- output root pre-exists: error logged, exit()
  | ran (r : RunResult) : MainResult
deriving DecidableEq, Repr

/-- The `__main__` block: refuse to run when the output directory
already exists, otherwise call `process_masks`. -/
def main_block (output_dir_exists : Bool) (input : Option (List SampleDir))
    (cfg : Config) : RunState × MainResult :=
  if output_dir_exists then
    (initState, MainResult.alreadyExists)
  else
    let r := process_masks input cfg
    (r.1, MainResult.ran r.2)

/-! ## Theorems -/

theorem getD_zipWith_store (object_id : Nat) (a b : List Nat) (hlen : a.length = b.length)
    (c : Nat) :
    (List.zipWith (fun cv mv => if 0 < mv then object_id % U16 else cv) a b).getD c 0
      = if 0 < b.getD c 0 then object_id % U16 else a.getD c 0 := by
  induction a generalizing b c with
  | nil =>
    cases b with
    | nil => simp [List.getD]
    | cons y ys => simp at hlen
  | cons x xs ih =>
    cases b with
    | nil => simp at hlen
    | cons y ys =>
      cases c with
      | zero => simp [List.getD]
      | succ c' =>
        simpa [List.getD] using ih ys (by simpa using hlen) c'

theorem pix_paint (combined mask : Image) (object_id : Nat)
    (hprof : profile combined = profile mask) (r c : Nat) :
    pix (paint combined mask object_id) r c
      = if 0 < pix mask r c then object_id % U16 else pix combined r c := by
  induction combined generalizing mask r with
  | nil =>
    cases mask with
    | nil => simp [paint, pix, List.getD]
    | cons mrow mrest => simp [profile] at hprof
  | cons crow crest ih =>
    cases mask with
    | nil => simp [profile] at hprof
    | cons mrow mrest =>
      simp only [profile, List.map_cons, List.cons.injEq] at hprof
      cases r with
      | zero =>
        simpa [paint, pix, List.getD] using
          getD_zipWith_store object_id crow mrow hprof.1 c
      | succ r' =>
        simpa [paint, pix, List.getD] using ih mrest hprof.2 r'

theorem profile_paint (combined mask : Image) (object_id : Nat)
    (hprof : profile combined = profile mask) :
    profile (paint combined mask object_id) = profile combined := by
  induction combined generalizing mask with
  | nil => simp [paint, profile]
  | cons crow crest ih =>
    cases mask with
    | nil => simp [profile] at hprof
    | cons mrow mrest =>
      simp only [profile, List.map_cons, List.cons.injEq] at hprof
      simp only [paint, List.zipWith_cons_cons, profile, List.map_cons,
        List.cons.injEq]
      constructor
      · simp [hprof.1]
      · exact ih mrest hprof.2

/-- Master lemma: the pixel values computed by the `combine_masks` loop.
A pixel holds `(object_id + i) % 2^16` where `i` is the index of the
last mask that is foreground there, and keeps its prior buffer value
otherwise. -/
theorem pix_combineLoop (ms : List Image) (combined : Image) (object_id : Nat)
    (hprof : ∀ m ∈ ms, profile m = profile combined) (r c : Nat) :
    pix (combineLoop combined object_id ms) r c
      = match lastHit r c ms with
        | some i => (object_id + i) % U16
        | none => pix combined r c := by
  induction ms generalizing combined object_id with
  | nil => simp [combineLoop, lastHit]
  | cons m ms' ih =>
    have hm : profile m = profile combined := hprof m (by simp)
    have hpaint : profile (paint combined m object_id) = profile combined :=
      profile_paint combined m object_id hm.symm
    have hrest : ∀ m' ∈ ms', profile m' = profile (paint combined m object_id) := by
      intro m' hm'
      rw [hpaint]
      exact hprof m' (by simp [hm'])
    have hstep := ih (paint combined m object_id) (object_id + 1) hrest
    simp only [combineLoop, lastHit]
    rw [hstep]
    cases hlast : lastHit r c ms' with
    | some i =>
      simp only []
      ring_nf
    | none =>
      simp only []
      rw [pix_paint combined m object_id hm.symm r c]
      by_cases hfg : 0 < pix m r c
      · simp [hfg]
      · simp [hfg]

theorem profile_eq_replicate_of_rect {img : Image} {h w : Nat} (hr : Rect img h w) :
    profile img = List.replicate h w := by
  obtain ⟨hlen, hrow⟩ := hr
  subst hlen
  induction img with
  | nil => simp [profile]
  | cons row rest ih =>
    simp only [profile, List.map_cons, List.length_cons, List.replicate_succ,
      List.cons.injEq]
    exact ⟨hrow row (by simp), ih fun r hr => hrow r (by simp [hr])⟩

theorem rect_of_profile_eq_replicate {img : Image} {h w : Nat}
    (hp : profile img = List.replicate h w) : Rect img h w := by
  constructor
  · have := congrArg List.length hp
    simpa [profile] using this
  · intro row hrow
    have : row.length ∈ profile img := by
      simp only [profile]
      exact List.mem_map_of_mem List.length hrow
    rw [hp] at this
    exact List.eq_of_mem_replicate this

theorem getD_len_le {α : Type} (l : List α) (d : α) (i : Nat) (h : l.length ≤ i) :
    l.getD i d = d := by
  induction l generalizing i with
  | nil => cases i <;> rfl
  | cons x xs ih =>
    cases i with
    | zero => simp at h
    | succ i' => simpa [List.getD] using ih i' (by simp at h; omega)

theorem pix_rect_oob {img : Image} {h w : Nat} (hr : Rect img h w) {r c : Nat}
    (hout : h ≤ r ∨ w ≤ c) : pix img r c = 0 := by
  obtain ⟨hlen, hrow⟩ := hr
  unfold pix
  rcases hout with hout | hout
  · rw [getD_len_le img [] r (hlen ▸ hout)]
    rfl
  · by_cases hrlt : r < img.length
    · have hmem : img.getD r [] ∈ img := by
        rw [List.getD_eq_getElem _ _ hrlt]
        exact List.getElem_mem hrlt
      exact getD_len_le _ 0 c ((hrow _ hmem) ▸ hout)
    · rw [getD_len_le img [] r (Nat.le_of_not_lt hrlt)]
      rfl

theorem pix_np_zeros (h w r c : Nat) : pix (np_zeros h w) r c = 0 := by
  unfold pix np_zeros
  by_cases hr : r < h
  · rw [List.getD_eq_getElem (List.replicate h (List.replicate w 0)) []
      (by simpa using hr)]
    rw [List.getElem_replicate]
    by_cases hc : c < w
    · rw [List.getD_eq_getElem (List.replicate w 0) 0 (by simpa using hc)]
      rw [List.getElem_replicate]
    · exact getD_len_le _ 0 c (by simpa using Nat.le_of_not_lt hc)
  · rw [getD_len_le (List.replicate h (List.replicate w 0)) [] r
      (by simpa using Nat.le_of_not_lt hr)]
    rfl

theorem profile_np_zeros (h w : Nat) :
    profile (np_zeros h w) = List.replicate h w := by
  unfold profile np_zeros
  induction h with
  | zero => simp
  | succ n ih => simpa [List.replicate_succ] using ih

/-- The shape `combine_masks` reads from its first element reproduces
that element's profile, rectangular or not in height 0 cases. -/
theorem profile_np_zeros_of_first {m : Image} {h w : Nat} (hr : Rect m h w) :
    profile (np_zeros m.length (m.headD []).length) = profile m := by
  obtain ⟨hlen, hrow⟩ := hr
  cases m with
  | nil => simp [profile, np_zeros]
  | cons row rest =>
    have hw : row.length = w := hrow row (by simp)
    have : Rect (row :: rest) (row :: rest).length w :=
      ⟨rfl, fun r hr => hrow r hr⟩
    rw [profile_eq_replicate_of_rect this]
    simpa [hw] using profile_np_zeros (row :: rest).length row.length

theorem profile_combineLoop (ms : List Image) (combined : Image) (object_id : Nat)
    (hprof : ∀ m ∈ ms, profile m = profile combined) :
    profile (combineLoop combined object_id ms) = profile combined := by
  induction ms generalizing combined object_id with
  | nil => simp [combineLoop]
  | cons m ms' ih =>
    have hm : profile m = profile combined := hprof m (by simp)
    have hpaint : profile (paint combined m object_id) = profile combined :=
      profile_paint combined m object_id hm.symm
    simp only [combineLoop]
    rw [ih (paint combined m object_id) (object_id + 1)
      (fun m' hm' => by rw [hpaint]; exact hprof m' (by simp [hm'])), hpaint]

theorem lastHit_lt_length {r c : Nat} {ms : List Image} {i : Nat}
    (hl : lastHit r c ms = some i) : i < ms.length := by
  induction ms generalizing i with
  | nil => simp [lastHit] at hl
  | cons m ms' ih =>
    simp only [lastHit] at hl
    cases hrest : lastHit r c ms' with
    | some j =>
      rw [hrest] at hl
      simp only [Option.some.injEq] at hl
      subst hl
      exact Nat.succ_lt_succ (ih hrest)
    | none =>
      rw [hrest] at hl
      by_cases hfg : 0 < pix m r c
      · simp only [hfg, if_pos] at hl
        simp only [Option.some.injEq] at hl
        subst hl
        simp
      · simp [hfg] at hl

theorem lastHit_fg {r c : Nat} {ms : List Image} {i : Nat}
    (hl : lastHit r c ms = some i) : 0 < pix (ms.getD i []) r c := by
  induction ms generalizing i with
  | nil => simp [lastHit] at hl
  | cons m ms' ih =>
    simp only [lastHit] at hl
    cases hrest : lastHit r c ms' with
    | some j =>
      rw [hrest] at hl
      simp only [Option.some.injEq] at hl
      subst hl
      simpa [List.getD] using ih hrest
    | none =>
      rw [hrest] at hl
      by_cases hfg : 0 < pix m r c
      · simp only [hfg, if_pos, Option.some.injEq] at hl
        subst hl
        simpa [List.getD] using hfg
      · simp [hfg] at hl

theorem lastHit_eq_none_iff {r c : Nat} {ms : List Image} :
    lastHit r c ms = none ↔ ∀ m ∈ ms, pix m r c = 0 := by
  induction ms with
  | nil => simp [lastHit]
  | cons m ms' ih =>
    simp only [lastHit]
    cases hrest : lastHit r c ms' with
    | some j =>
      simp only []
      constructor
      · intro h; exact absurd h (by simp)
      · intro hall
        have : ∀ m' ∈ ms', pix m' r c = 0 := fun m' hm' => hall m' (by simp [hm'])
        rw [ih.mpr this] at hrest
        exact absurd hrest (by simp)
    | none =>
      have hall' : ∀ m' ∈ ms', pix m' r c = 0 := ih.mp hrest
      by_cases hfg : 0 < pix m r c
      · simp only [hfg, if_pos]
        constructor
        · intro h; exact absurd h (by simp)
        · intro hall
          exact absurd (hall m (by simp)) (by omega)
      · simp only [hfg, if_neg (by exact hfg)]
        constructor
        · intro _
          intro m' hm'
          rcases List.mem_cons.mp hm' with h | h
          · subst h; omega
          · exact hall' m' h
        · intro _; rfl

/-- When the masks' foregrounds at `(r, c)` are covered by a single mask
`k` (all others background there), the last hit is exactly `k`. -/
theorem lastHit_eq_of_unique {r c : Nat} {ms : List Image} {k : Nat}
    (hk : k < ms.length) (hfg : 0 < pix (ms.getD k []) r c)
    (huniq : ∀ j, j < ms.length → j ≠ k → pix (ms.getD j []) r c = 0) :
    lastHit r c ms = some k := by
  induction ms generalizing k with
  | nil => simp at hk
  | cons m ms' ih =>
    cases k with
    | zero =>
      have hrest : lastHit r c ms' = none := by
        rw [lastHit_eq_none_iff]
        intro m' hm'
        obtain ⟨j, hj, hj'⟩ := List.getElem_of_mem hm'
        have hgd : ms'.getD j [] = m' := by
          rw [List.getD_eq_getElem ms' [] hj]; exact hj'
        have hstep := huniq (j + 1) (by simpa using Nat.succ_lt_succ hj) (by simp)
        rw [show (m :: ms').getD (j + 1) [] = ms'.getD j [] from rfl, hgd] at hstep
        exact hstep
      have hfg0 : 0 < pix m r c := by
        rw [show (m :: ms').getD 0 [] = m from rfl] at hfg
        exact hfg
      simp [lastHit, hrest, hfg0]
    | succ k' =>
      have hk' : k' < ms'.length := by simpa using hk
      have hfg' : 0 < pix (ms'.getD k' []) r c := by simpa [List.getD] using hfg
      have huniq' : ∀ j, j < ms'.length → j ≠ k' → pix (ms'.getD j []) r c = 0 := by
        intro j hj hjk
        have := huniq (j + 1) (by simpa using Nat.succ_lt_succ hj) (by omega)
        simpa [List.getD] using this
      simp [lastHit, ih hk' hfg' huniq']

/-- Full characterisation of a successful `combine_masks` run on
rectangular, equally-sized inputs: the output is rectangular of the same
size, and each pixel holds `(1 + i) % 2^16` for `i` the last mask
foreground there, else 0. -/
theorem combine_masks_char (ms : List Image) (h w : Nat) (hne : ms ≠ [])
    (hrect : ∀ m ∈ ms, Rect m h w) :
    ∃ out, combine_masks ms = Except.ok out ∧ Rect out h w ∧
      ∀ r c, pix out r c
        = match lastHit r c ms with
          | some i => (1 + i) % U16
          | none => 0 := by
  cases ms with
  | nil => exact absurd rfl hne
  | cons m0 rest =>
    have hm0 : Rect m0 h w := hrect m0 (by simp)
    have hzero : profile (np_zeros m0.length (m0.headD []).length) = profile m0 :=
      profile_np_zeros_of_first hm0
    have hprofall :
        ∀ m ∈ m0 :: rest,
          profile m = profile (np_zeros m0.length (m0.headD []).length) := by
      intro m hm
      rw [hzero, profile_eq_replicate_of_rect (hrect m hm),
        profile_eq_replicate_of_rect hm0]
    refine ⟨combineLoop (np_zeros m0.length (m0.headD []).length) 1 (m0 :: rest),
      rfl, ?_, ?_⟩
    · apply rect_of_profile_eq_replicate
      rw [profile_combineLoop _ _ _ hprofall, hzero,
        profile_eq_replicate_of_rect hm0]
    · intro r c
      rw [pix_combineLoop (m0 :: rest) _ 1 hprofall r c]
      cases lastHit r c (m0 :: rest) with
      | some i => rfl
      | none => exact pix_np_zeros _ _ _ _

/-- The pixels of the empty image are all background. -/
theorem pix_nil (r c : Nat) : pix ([] : Image) r c = 0 := by
  unfold pix
  rw [getD_len_le ([] : Image) [] r (by simp)]
  rfl

theorem mem_join_iff_pix {img : Image} {h w : Nat} (hr : Rect img h w) {v : Nat}
    (hv : v ≠ 0) : v ∈ img.flatten ↔ ∃ r c, pix img r c = v := by
  constructor
  · intro hmem
    obtain ⟨row, hrowmem, hvrow⟩ := List.mem_flatten.mp hmem
    obtain ⟨r, hrlt, hrget⟩ := List.getElem_of_mem hrowmem
    obtain ⟨c, hclt, hcget⟩ := List.getElem_of_mem hvrow
    refine ⟨r, c, ?_⟩
    unfold pix
    rw [List.getD_eq_getElem img [] hrlt, hrget,
      List.getD_eq_getElem row 0 hclt, hcget]
  · rintro ⟨r, c, hpix⟩
    by_cases hrb : r < h
    · by_cases hcb : c < w
      · have hrlt : r < img.length := hr.1 ▸ hrb
        have hrowmem : img.getD r [] ∈ img := by
          rw [List.getD_eq_getElem img [] hrlt]
          exact List.getElem_mem hrlt
        have hclt : c < (img.getD r []).length := (hr.2 _ hrowmem) ▸ hcb
        apply List.mem_flatten.mpr
        refine ⟨img.getD r [], hrowmem, ?_⟩
        unfold pix at hpix
        rw [List.getD_eq_getElem _ 0 hclt] at hpix
        rw [← hpix]
        exact List.getElem_mem hclt
      · exact absurd (pix_rect_oob hr (Or.inr (Nat.le_of_not_lt hcb)) ▸ hpix)
          (fun hh => hv hh.symm)
    · exact absurd (pix_rect_oob hr (Or.inl (Nat.le_of_not_lt hrb)) ▸ hpix)
        (fun hh => hv hh.symm)

theorem mem_nonzeroValues_iff {img : Image} {v : Nat} :
    v ∈ nonzeroValues img ↔ v ∈ img.flatten ∧ v ≠ 0 := by
  unfold nonzeroValues
  rw [List.mem_dedup, List.mem_filter]
  simp

/-- **C4.** Calling `combine_masks` on an empty sequence of masks fails
with the `InvalidInput` error (the script's `mask_images[0].shape` read
raises on an empty sequence); it never returns an output image. -/
theorem combine_masks_empty_invalid :
    combine_masks [] = Except.error MaskError.invalidInput ∧
      ∀ img : Image, combine_masks [] ≠ Except.ok img := by
  refine ⟨rfl, ?_⟩
  intro img hok
  simp [combine_masks] at hok

/-- **C3.** For two equally-sized masks where mask 2's foreground is
contained in mask 1's, `combine_masks` writes 2 (the later id,
last-write-wins) at every mask-2 foreground pixel, 1 on the remaining
mask-1 foreground, and 0 on the background: the overlap is resolved in
favour of the later mask and no object id is skipped. -/
theorem combine_masks_overlap_last_wins (m1 m2 : Image) (h w : Nat)
    (h1 : Rect m1 h w) (h2 : Rect m2 h w)
    (hsub : ∀ r, r < h → ∀ c, c < w → 0 < pix m2 r c → 0 < pix m1 r c) :
    ∃ out, combine_masks [m1, m2] = Except.ok out ∧ Rect out h w ∧
      (∀ r c, 0 < pix m2 r c → pix out r c = 2) ∧
      (∀ r c, 0 < pix m1 r c → pix m2 r c = 0 → pix out r c = 1) ∧
      (∀ r c, pix m1 r c = 0 → pix m2 r c = 0 → pix out r c = 0) := by
  obtain ⟨out, hok, hrect, hpix⟩ :=
    combine_masks_char [m1, m2] h w (by simp)
      (by
        intro m hm
        simp only [List.mem_cons, List.not_mem_nil, or_false] at hm
        rcases hm with rfl | rfl
        · exact h1
        · exact h2)
  refine ⟨out, hok, hrect, ?_, ?_, ?_⟩
  · intro r c hfg2
    have : lastHit r c [m1, m2] = some 1 := by
      simp [lastHit, hfg2]
    rw [hpix r c, this]
    decide
  · intro r c hfg1 hbg2
    have : lastHit r c [m1, m2] = some 0 := by
      simp [lastHit, hbg2, hfg1]
    rw [hpix r c, this]
    decide
  · intro r c hbg1 hbg2
    have : lastHit r c [m1, m2] = none := by
      simp [lastHit, hbg1, hbg2]
    rw [hpix r c, this]

/-- Witness for C3 at a concrete pair of 2×2 overlapping masks. -/
theorem combine_masks_overlap_last_wins_witness :
    ∃ out, combine_masks [[[3, 1], [0, 2]], [[0, 4], [0, 0]]] = Except.ok out ∧
      pix out 0 1 = 2 ∧ pix out 0 0 = 1 ∧ pix out 1 0 = 0 := by
  obtain ⟨out, hok, _, h2s, h1s, h0s⟩ :=
    combine_masks_overlap_last_wins [[3, 1], [0, 2]] [[0, 4], [0, 0]] 2 2
      (by decide) (by decide) (by decide)
  exact ⟨out, hok, h2s 0 1 (by decide), h1s 0 0 (by decide) (by decide),
    h0s 1 0 (by decide) (by decide)⟩

/-- **C2 (counterexample).** The claim demands that for every non-empty
sequence of `N` pairwise-disjoint masks the output contain exactly `N`
distinct non-zero values.  A single all-zero mask (disjoint from itself
vacuously, `N = 1`) yields an output with no non-zero value at all: the
value 1 never appears. -/
theorem combine_masks_allzero_counterexample :
    combine_masks [[[0]]] = Except.ok [[0]] ∧ nonzeroValues [[0]] = [] := by
  constructor
  · rfl
  · rfl

/-- **C2 (amended).** For every non-empty sequence of `N < 2^16`
equally-sized masks whose foregrounds are pairwise disjoint and each
non-empty, `combine_masks` succeeds with an image of the same size in
which the `k`-th mask's foreground pixels hold exactly the value `k`
(1-based), all other pixels are 0, and the distinct non-zero values are
exactly `1, …, N`. -/
theorem combine_masks_disjoint_spec (ms : List Image) (h w : Nat)
    (hne : ms ≠ [])
    (hrect : ∀ m ∈ ms, Rect m h w)
    (hN : ms.length < U16)
    (hdisj : ∀ i, i < ms.length → ∀ j, j < ms.length → i ≠ j →
      ∀ r, r < h → ∀ c, c < w →
        0 < pix (ms.getD i []) r c → pix (ms.getD j []) r c = 0)
    (hfg : ∀ k, k < ms.length →
      ∃ r, r < h ∧ ∃ c, c < w ∧ 0 < pix (ms.getD k []) r c) :
    ∃ out, combine_masks ms = Except.ok out ∧ Rect out h w ∧
      (∀ k, k < ms.length →
        ∀ r c, 0 < pix (ms.getD k []) r c → pix out r c = k + 1) ∧
      (∀ r c, (∀ m ∈ ms, pix m r c = 0) → pix out r c = 0) ∧
      (∀ v, v ∈ nonzeroValues out ↔ 1 ≤ v ∧ v ≤ ms.length) := by
  obtain ⟨out, hok, hrect', hpix⟩ := combine_masks_char ms h w hne hrect
  have hgd_rect : ∀ k, k < ms.length → Rect (ms.getD k []) h w := by
    intro k hk
    have : ms.getD k [] ∈ ms := by
      rw [List.getD_eq_getElem ms [] hk]
      exact List.getElem_mem hk
    exact hrect _ this
  -- the `k`-th mask's foreground pixels receive the value `k + 1`
  have hkth : ∀ k, k < ms.length →
      ∀ r c, 0 < pix (ms.getD k []) r c → pix out r c = k + 1 := by
    intro k hk r c hfgk
    have hrb : r < h := by
      by_contra hrb
      rw [pix_rect_oob (hgd_rect k hk) (Or.inl (Nat.le_of_not_lt hrb))] at hfgk
      exact Nat.lt_irrefl 0 hfgk
    have hcb : c < w := by
      by_contra hcb
      rw [pix_rect_oob (hgd_rect k hk) (Or.inr (Nat.le_of_not_lt hcb))] at hfgk
      exact Nat.lt_irrefl 0 hfgk
    have hlast : lastHit r c ms = some k :=
      lastHit_eq_of_unique hk hfgk
        (fun j hj hjk => hdisj k hk j hj (fun hh => hjk hh.symm) r hrb c hcb hfgk)
    rw [hpix r c, hlast]
    have : 1 + k < U16 := by omega
    simpa [Nat.mod_eq_of_lt this] using Nat.add_comm 1 k
  -- background pixels stay 0
  have hbg : ∀ r c, (∀ m ∈ ms, pix m r c = 0) → pix out r c = 0 := by
    intro r c hall
    rw [hpix r c, lastHit_eq_none_iff.mpr hall]
  refine ⟨out, hok, hrect', hkth, hbg, ?_⟩
  intro v
  rw [mem_nonzeroValues_iff]
  constructor
  · rintro ⟨hjoin, hv⟩
    obtain ⟨r, c, hrc⟩ := (mem_join_iff_pix hrect' hv).mp hjoin
    rw [hpix r c] at hrc
    cases hlast : lastHit r c ms with
    | none =>
      rw [hlast] at hrc
      exact absurd hrc.symm hv
    | some i =>
      rw [hlast] at hrc
      have hrc' : (1 + i) % U16 = v := hrc
      have hi : i < ms.length := lastHit_lt_length hlast
      have : (1 + i) % U16 = 1 + i := Nat.mod_eq_of_lt (by omega)
      omega
  · rintro ⟨hv1, hvN⟩
    have hk : v - 1 < ms.length := by omega
    obtain ⟨r, hrb, c, hcb, hfgk⟩ := hfg (v - 1) hk
    have hval : pix out r c = v := by
      have := hkth (v - 1) hk r c hfgk
      omega
    refine ⟨(mem_join_iff_pix hrect' (by omega)).mpr ⟨r, c, hval⟩, by omega⟩

/-- Witness for the amended C2 at two disjoint non-empty 1×2 masks. -/
theorem combine_masks_disjoint_spec_witness :
    ∃ out, combine_masks [[[5, 0]], [[0, 3]]] = Except.ok out ∧
      pix out 0 0 = 1 ∧ pix out 0 1 = 2 ∧
      (∀ v, v ∈ nonzeroValues out ↔ 1 ≤ v ∧ v ≤ 2) := by
  obtain ⟨out, hok, _, hkth, _, hvals⟩ :=
    combine_masks_disjoint_spec [[[5, 0]], [[0, 3]]] 1 2
      (by decide) (by decide) (by decide) (by decide) (by decide)
  exact ⟨out, hok, hkth 0 (by decide) 0 0 (by decide),
    hkth 1 (by decide) 0 1 (by decide), hvals⟩

/-- Fidelity of the substring test: it decides exactly contiguous
(infix) occurrence. -/
theorem containsStr_iff_infix (pat s : String) :
    containsStr pat s = true ↔ pat.toList <:+: s.toList := by
  unfold containsStr
  generalize pat.toList = p
  generalize s.toList = l
  induction l with
  | nil =>
    simp [strContainsAux, List.isEmpty_iff]
  | cons c cs ih =>
    simp [strContainsAux, List.infix_cons_iff, ih,
      List.isPrefixOf_iff_prefix]

theorem pathJoin_inj {root a b : String} (hab : pathJoin root a = pathJoin root b) :
    a = b := by
  unfold pathJoin at hab
  have hdata : (root ++ "/" ++ a).data = (root ++ "/" ++ b).data := by rw [hab]
  simp only [String.data_append] at hdata
  have := List.append_cancel_left hdata
  cases a; cases b
  exact congrArg String.mk this

theorem split_data_valid_eq (root : String) (ds : List String) (vp tp : String) :
    (split_data root ds vp tp).valid
      = (ds.filter (fun d => containsStr vp d)).map (pathJoin root) := by
  induction ds with
  | nil => rfl
  | cons d ds' ih =>
    by_cases hv : containsStr vp d
    · simp [split_data, hv, List.filter_cons, ih]
    · by_cases ht : containsStr tp d <;> simp [split_data, hv, ht, List.filter_cons, ih]

theorem split_data_test_eq (root : String) (ds : List String) (vp tp : String) :
    (split_data root ds vp tp).test
      = (ds.filter (fun d => !containsStr vp d && containsStr tp d)).map
          (pathJoin root) := by
  induction ds with
  | nil => rfl
  | cons d ds' ih =>
    by_cases hv : containsStr vp d
    · simp [split_data, hv, List.filter_cons, ih]
    · by_cases ht : containsStr tp d <;> simp [split_data, hv, ht, List.filter_cons, ih]

theorem split_data_train_eq (root : String) (ds : List String) (vp tp : String) :
    (split_data root ds vp tp).train
      = (ds.filter (fun d => !containsStr vp d && !containsStr tp d)).map
          (pathJoin root) := by
  induction ds with
  | nil => rfl
  | cons d ds' ih =>
    by_cases hv : containsStr vp d
    · simp [split_data, hv, List.filter_cons, ih]
    · by_cases ht : containsStr tp d <;> simp [split_data, hv, ht, List.filter_cons, ih]

theorem mem_map_pathJoin_iff {root d : String} {l : List String} :
    pathJoin root d ∈ l.map (pathJoin root) ↔ d ∈ l := by
  constructor
  · intro hmem
    obtain ⟨d', hd', heq⟩ := List.mem_map.mp hmem
    rwa [pathJoin_inj heq] at hd'
  · exact fun hmem => List.mem_map_of_mem _ hmem

theorem mem_bucket_iff (root : String) (l : List String) (p : String → Bool)
    (d : String) :
    pathJoin root d ∈ (l.filter p).map (pathJoin root) ↔ d ∈ l ∧ p d = true := by
  rw [mem_map_pathJoin_iff, List.mem_filter]

/-- **C5.** `split_data` is a total, non-overlapping partition of the
child directory names: each name's joined path lands in the bucket its
classification picks (validation pattern first, then test pattern, else
train — so a name containing both patterns goes to valid), and in no
other bucket; the pattern test is plain substring containment. -/
theorem split_data_partition (root : String) (ds : List String) (vp tp : String) :
    (∀ d ∈ ds,
      (pathJoin root d ∈ (split_data root ds vp tp).valid
          ↔ classify vp tp d = SplitName.valid) ∧
      (pathJoin root d ∈ (split_data root ds vp tp).test
          ↔ classify vp tp d = SplitName.test) ∧
      (pathJoin root d ∈ (split_data root ds vp tp).train
          ↔ classify vp tp d = SplitName.train)) ∧
    (∀ d ∈ ds, containsStr vp d = true → containsStr tp d = true →
      classify vp tp d = SplitName.valid) ∧
    (∀ p s : String, containsStr p s = true ↔ p.toList <:+: s.toList) := by
  refine ⟨?_, ?_, fun p s => containsStr_iff_infix p s⟩
  · intro d hd
    rw [split_data_valid_eq, split_data_test_eq, split_data_train_eq,
      mem_bucket_iff, mem_bucket_iff, mem_bucket_iff]
    unfold classify
    by_cases hv : containsStr vp d
    · simp [hv, hd]
    · by_cases ht : containsStr tp d <;> simp [hv, ht, hd]
  · intro d _ hv _
    simp [classify, hv]

/-- Witness for C5 on a concrete listing: `plateV` contains the
validation pattern (and also the test pattern), `plateT` only the test
pattern, `plateX` neither. -/
theorem split_data_partition_witness :
    (pathJoin "root" "a_V_T_b" ∈ (split_data "root" ["a_V_T_b", "cTd", "e"] "V" "T").valid
        ↔ classify "V" "T" "a_V_T_b" = SplitName.valid) ∧
      classify "V" "T" "a_V_T_b" = SplitName.valid ∧
      (pathJoin "root" "cTd" ∈ (split_data "root" ["a_V_T_b", "cTd", "e"] "V" "T").test
        ↔ classify "V" "T" "cTd" = SplitName.test) ∧
      (pathJoin "root" "e" ∈ (split_data "root" ["a_V_T_b", "cTd", "e"] "V" "T").train
        ↔ classify "V" "T" "e" = SplitName.train) := by
  obtain ⟨hpart, hboth, _⟩ := split_data_partition "root" ["a_V_T_b", "cTd", "e"] "V" "T"
  exact ⟨(hpart "a_V_T_b" (by simp)).1,
    hboth "a_V_T_b" (by simp) (by decide) (by decide),
    (hpart "cTd" (by simp)).2.1,
    (hpart "e" (by simp)).2.2⟩

/-- **C6.** The copier copies all and only the source-directory entries
whose name starts with the base-name prefix (exact, case-sensitive
`startswith`), and an empty source directory copies zero files (the
function is total, so no error is raised). -/
theorem copy_corresponding_files_spec (listing : List String)
    (filename_base : String) :
    copy_corresponding_files listing filename_base
        = listing.filter (fun f => f.startsWith filename_base) ∧
      (∀ f, f ∈ copy_corresponding_files listing filename_base
          ↔ f ∈ listing ∧ f.startsWith filename_base = true) ∧
      copy_corresponding_files [] filename_base = [] := by
  have hfilter : ∀ l : List String,
      copy_corresponding_files l filename_base
        = l.filter (fun f => f.startsWith filename_base) := by
    intro l
    induction l with
    | nil => rfl
    | cons f rest ih =>
      by_cases hf : f.startsWith filename_base <;>
        simp [copy_corresponding_files, hf, List.filter_cons, ih]
  refine ⟨hfilter listing, ?_, rfl⟩
  intro f
  rw [hfilter listing, List.mem_filter]

/-- **C8.** The loader returns exactly the successfully decoded images
in directory-listing order, skipping every failed decode without
aborting (it is a total function), and returns the empty sequence both
for an empty directory and for an all-unreadable one. -/
theorem load_mask_images_spec (files : List (Option Image)) :
    load_mask_images files = files.filterMap id ∧
      load_mask_images ([] : List (Option Image)) = [] ∧
      ((∀ f ∈ files, f = none) → load_mask_images files = []) := by
  have hmap : ∀ fs : List (Option Image), load_mask_images fs = fs.filterMap id := by
    intro fs
    induction fs with
    | nil => rfl
    | cons f rest ih =>
      cases f <;> simp [load_mask_images, ih]
  refine ⟨hmap files, rfl, ?_⟩
  intro hall
  induction files with
  | nil => rfl
  | cons f rest ih =>
    have hf : f = none := hall f (by simp)
    subst hf
    exact (by simpa [load_mask_images] using ih (fun g hg => hall g (by simp [hg])))

/-- Witness for C8 on an all-unreadable directory of two entries. -/
theorem load_mask_images_spec_witness :
    load_mask_images [none, none] = List.filterMap id [none, none] ∧
      load_mask_images [none, none] = [] := by
  obtain ⟨hmap, _, hnone⟩ := load_mask_images_spec [none, none]
  exact ⟨hmap, hnone (by simp)⟩

/-- **C7.** When the input root does not exist, `process_masks` logs an
error and returns immediately: the run ends as `inputMissing` with an
empty event trace — no directory created, no mask written, no file
copied. -/
theorem process_masks_missing_input (cfg : Config) :
    process_masks none cfg = (initState, RunResult.inputMissing) ∧
      (process_masks none cfg).1.events = [] := by
  exact ⟨rfl, rfl⟩

/-- **C9.** When the output root already exists, the `__main__` block
refuses to run: it ends as `alreadyExists` without calling
`process_masks`, with an empty event trace — zero writes of any kind. -/
theorem main_block_output_exists (input : Option (List SampleDir)) (cfg : Config) :
    main_block true input cfg = (initState, MainResult.alreadyExists) ∧
      (main_block true input cfg).1.events = [] ∧
      (main_block true input cfg).1.created = [] := by
  exact ⟨rfl, rfl, rfl⟩

/-- **C1 (defect exhibited).** For a sample with two non-excluded
classes `A` (foreground at pixel (0,0)) and `B` (foreground at (0,1)),
the run completes and the full event trace shows the "all" aggregated
mask written for the sample is `[[0, 1]]` — `combine_masks` of only the
*last* class's `mask_images` — whereas the aggregate of every
non-excluded class's masks with ids continuing across classes is
`[[1, 2]]`.  The claimed union behaviour is the spec's stated intent;
the code writes only the last-processed class. -/
theorem process_masks_all_mask_defect :
    (process_masks
        (some [⟨"s1", [⟨"A", [some [[7, 0]]]⟩, ⟨"B", [some [[0, 9]]]⟩]⟩])
        ⟨"out", [], "VAL", "TST", "png", ["Unidentified"]⟩).2
        = RunResult.completed ∧
      (process_masks
        (some [⟨"s1", [⟨"A", [some [[7, 0]]]⟩, ⟨"B", [some [[0, 9]]]⟩]⟩])
        ⟨"out", [], "VAL", "TST", "png", ["Unidentified"]⟩).1.events
        = [Event.createDir "out/png/all/train",
           Event.createDir "out/png/A/train",
           Event.writeMask "out/png/A/train/s1_masks.png" [[1, 0]],
           Event.createDir "out/png/B/train",
           Event.writeMask "out/png/B/train/s1_masks.png" [[0, 1]],
           Event.writeMask "out/png/all/train/s1_masks.png" [[0, 1]]] ∧
      combine_masks
          (load_mask_images [some [[7, 0]]] ++ load_mask_images [some [[0, 9]]])
        = Except.ok [[1, 2]] ∧
      ([[0, 1]] : Image) ≠ [[1, 2]] := by
  refine ⟨rfl, rfl, rfl, ?_⟩
  decide

/-- **C10 (counterexample).** A run whose second sample `s2` has zero
class subdirectories does *not* fail: the local `mask_images` still
holds the first sample's last-loaded masks, so the run completes and
even writes an "all" mask for `s2` — the first sample's mask `[[1, 0]]`
— instead of raising an unbound-variable error. -/
theorem process_masks_stale_counterexample :
    (process_masks
        (some [⟨"s1", [⟨"A", [some [[7, 0]]]⟩]⟩, ⟨"s2", ([] : List ClassDir)⟩])
        ⟨"out", [], "VAL", "TST", "png", ["Unidentified"]⟩).2
        = RunResult.completed ∧
      (process_masks
        (some [⟨"s1", [⟨"A", [some [[7, 0]]]⟩]⟩, ⟨"s2", ([] : List ClassDir)⟩])
        ⟨"out", [], "VAL", "TST", "png", ["Unidentified"]⟩).1.events
        = [Event.createDir "out/png/all/train",
           Event.createDir "out/png/A/train",
           Event.writeMask "out/png/A/train/s1_masks.png" [[1, 0]],
           Event.writeMask "out/png/all/train/s1_masks.png" [[1, 0]],
           Event.writeMask "out/png/all/train/s2_masks.png" [[1, 0]]] := by
  exact ⟨rfl, rfl⟩

theorem processClasses_all_excluded (cfg : Config) (split_name filename_base : String)
    (st : RunState) (cs : List ClassDir)
    (hex : ∀ c ∈ cs, c.name ∈ cfg.exclude_class) :
    processClasses cfg split_name filename_base st cs = (st, none) := by
  induction cs with
  | nil => rfl
  | cons c rest ih =>
    have hc : c.name ∈ cfg.exclude_class := hex c (by simp)
    simp only [processClasses, processClass, if_pos hc]
    exact ih fun c' hc' => hex c' (by simp [hc'])

/-- **C10 (amended).** When the *first-listed* sample has zero
non-excluded class subdirectories (so no earlier iteration has bound
`mask_images`), `process_masks` crashes at that sample's aggregate-mask
step with the unbound-local error: the only event performed is the
creation of the "all" output directory — the sample's "all" mask is
never written and no further sample is processed.  (For a later sample
the stale binding from the previous sample is silently reused instead,
see the counterexample.) -/
theorem process_masks_no_class_first_sample (cfg : Config) (s : SampleDir)
    (rest : List SampleDir)
    (hex : ∀ c ∈ s.classes, c.name ∈ cfg.exclude_class) :
    (process_masks (some (s :: rest)) cfg).2
        = RunResult.crashed PyError.unboundLocal ∧
      (process_masks (some (s :: rest)) cfg).1.events
        = [Event.createDir
            (pathJoin (pathJoin (pathJoin cfg.output_dir cfg.format) "all")
              (classify cfg.val_pattern cfg.test_pattern s.name).toStr)] ∧
      ∀ p img, Event.writeMask p img ∉ (process_masks (some (s :: rest)) cfg).1.events := by
  have hbuckets :
      orderedBuckets (s :: rest) cfg.val_pattern cfg.test_pattern
        = (classify cfg.val_pattern cfg.test_pattern s.name,
            s :: rest.filter (fun x =>
              classify cfg.val_pattern cfg.test_pattern x.name
                == classify cfg.val_pattern cfg.test_pattern s.name))
          :: ((firstOccs (rest.map (fun x =>
                classify cfg.val_pattern cfg.test_pattern x.name))).filter
              (fun x => !(x == classify cfg.val_pattern cfg.test_pattern s.name))).map
            (fun k => (k, (s :: rest).filter (fun x =>
              classify cfg.val_pattern cfg.test_pattern x.name == k))) := by
    simp [orderedBuckets, firstOccs, List.filter_cons]
  have hsample :
      processSample cfg (classify cfg.val_pattern cfg.test_pattern s.name).toStr
          initState s
        = ({ events := [Event.createDir
              (pathJoin (pathJoin (pathJoin cfg.output_dir cfg.format) "all")
                (classify cfg.val_pattern cfg.test_pattern s.name).toStr)],
             created := [pathJoin (pathJoin (pathJoin cfg.output_dir cfg.format) "all")
               (classify cfg.val_pattern cfg.test_pattern s.name).toStr],
             mask_images := none }, some PyError.unboundLocal) := by
    simp only [processSample]
    rw [show create_directory initState
        (pathJoin (pathJoin (pathJoin cfg.output_dir cfg.format) "all")
          (classify cfg.val_pattern cfg.test_pattern s.name).toStr)
      = { events := [Event.createDir
            (pathJoin (pathJoin (pathJoin cfg.output_dir cfg.format) "all")
              (classify cfg.val_pattern cfg.test_pattern s.name).toStr)],
          created := [pathJoin (pathJoin (pathJoin cfg.output_dir cfg.format) "all")
            (classify cfg.val_pattern cfg.test_pattern s.name).toStr],
          mask_images := none } from by
        simp [create_directory, initState]]
    rw [processClasses_all_excluded cfg _ _ _ s.classes hex]
  have hrun :
      process_masks (some (s :: rest)) cfg
        = ({ events := [Event.createDir
              (pathJoin (pathJoin (pathJoin cfg.output_dir cfg.format) "all")
                (classify cfg.val_pattern cfg.test_pattern s.name).toStr)],
             created := [pathJoin (pathJoin (pathJoin cfg.output_dir cfg.format) "all")
               (classify cfg.val_pattern cfg.test_pattern s.name).toStr],
             mask_images := none }, RunResult.crashed PyError.unboundLocal) := by
    have hsplits :
        processSplits cfg initState
            (orderedBuckets (s :: rest) cfg.val_pattern cfg.test_pattern)
          = ({ events := [Event.createDir
                (pathJoin (pathJoin (pathJoin cfg.output_dir cfg.format) "all")
                  (classify cfg.val_pattern cfg.test_pattern s.name).toStr)],
               created := [pathJoin (pathJoin (pathJoin cfg.output_dir cfg.format) "all")
                 (classify cfg.val_pattern cfg.test_pattern s.name).toStr],
               mask_images := none }, some PyError.unboundLocal) := by
      rw [hbuckets]
      simp only [processSplits, processSamples, hsample]
    simp only [process_masks, hsplits]
  refine ⟨by rw [hrun], by rw [hrun], ?_⟩
  intro p img
  rw [hrun]
  simp

/-- Witness for the amended C10: a single sample whose only class is
the excluded "Unidentified". -/
theorem process_masks_no_class_first_sample_witness :
    (process_masks (some [⟨"s1", [⟨"Unidentified", [none]⟩]⟩])
        ⟨"out", [], "VAL", "TST", "png", ["Unidentified"]⟩).2
        = RunResult.crashed PyError.unboundLocal ∧
      Event.writeMask "out/png/all/train/s1_masks.png" [[1, 0]]
        ∉ (process_masks (some [⟨"s1", [⟨"Unidentified", [none]⟩]⟩])
            ⟨"out", [], "VAL", "TST", "png", ["Unidentified"]⟩).1.events := by
  obtain ⟨h1, _, h3⟩ :=
    process_masks_no_class_first_sample
      ⟨"out", [], "VAL", "TST", "png", ["Unidentified"]⟩
      ⟨"s1", [⟨"Unidentified", [none]⟩]⟩ [] (by decide)
  exact ⟨h1, h3 "out/png/all/train/s1_masks.png" [[1, 0]]⟩

end PrepareDatasets
